import Mathlib

/-!
Shallow embedding of the clash-mate gfwlist core (src/mate/gfwlist.go) and
verification of the frozen claims about it.

Strings are modelled as Lean String values (a wrapper around List Char); Go
byte-level string operations act character-wise, which agrees with the source
on all the ASCII data this code manipulates.  Effectful steps (the HTTP GET,
the base64-decoding bufio scanner, yaml.Marshal) are modelled as explicit
inputs of the functions that perform them, so every definition is executable.
A Go runtime panic is modelled as the value none of an Option result type.
-/

namespace Mate

/-- Classification tag: Go type t with the constants unknown, ip, domain,
domainKeyword (gfwlist.go lines 23-30). -/
inductive t where
  | unknown
  | ip
  | domain
  | domainKeyword
deriving DecidableEq

/-- Go strings.HasPrefix s pre. -/
def strStartsWith (s pre : String) : Bool := pre.data.isPrefixOf s.data

/-- Go strings.HasSuffix s suf. -/
def strEndsWith (s suf : String) : Bool := suf.data.isSuffixOf s.data

/-- Go strings.TrimLeft: remove all leading characters that belong to the
cutset (a character set, not a literal). -/
def strTrimLeft (s : String) (cutset : List Char) : String :=
  ⟨s.data.dropWhile (fun c => cutset.contains c)⟩

/-- Go strings.Trim: remove all leading and trailing characters that belong
to the cutset. -/
def strTrim (s : String) (cutset : List Char) : String :=
  ⟨((s.data.dropWhile (fun c => cutset.contains c)).reverse.dropWhile
      (fun c => cutset.contains c)).reverse⟩

/-- Go strings.Contains s c for a one-character substring. -/
def strContainsChar (s : String) (c : Char) : Bool := s.data.contains c

/-- Go strings.Split by a one-character separator: always returns at least
one (possibly empty) field. -/
def splitOnChar (sep : Char) : List Char → List (List Char)
  | [] => [[]]
  | c :: rest =>
    let r := splitOnChar sep rest
    if c = sep then [] :: r
    else
      match r with
      | g :: gs => (c :: g) :: gs
      | [] => [[c]]

/-- Index of the last occurrence of a character, Go strings.LastIndex. -/
def lastIndexOf (l : List Char) (c : Char) : Option Nat :=
  match l with
  | [] => none
  | x :: rest =>
    match lastIndexOf rest c with
    | some i => some (i + 1)
    | none => if x = c then some 0 else none

/-- Everything before the first occurrence of a character (the whole list
when the character is absent). -/
def takeUntilChar (l : List Char) (c : Char) : List Char :=
  l.takeWhile (fun x => x ≠ c)

/-- uniqueList (gfwlist.go lines 32-43): one pass over the list, keeping the
first occurrence of each value and dropping empty strings; m is the Go
map of already-seen values. -/
def uniqueListGo : List String → List String → List String
  | _, [] => []
  | m, v :: rest =>
    if v ∈ m ∨ v = "" then uniqueListGo m rest
    else v :: uniqueListGo (v :: m) rest

/-- uniqueList as called by parseToList: the seen-set starts empty. -/
def uniqueList (list : List String) : List String := uniqueListGo [] list

/-- Reference definition written from the spec's words: deduplication keeps
the first occurrence of each value, preserves order and drops empty strings
(spec section 4.3).  Used only to compare uniqueList against the spec. -/
def dedupFirstOccur : List String → List String
  | [] => []
  | v :: rest =>
    if v = "" then dedupFirstOccur rest
    else v :: (dedupFirstOccur rest).filter (fun x => x != v)

/-- renderClashRules (gfwlist.go lines 58-72): three sequential append
loops, keywords first, then ips, then domains. -/
def renderClashRules (domainList ipList domainKeywordList : List String) :
    List String :=
  let rules : List String := []
  let rules := domainKeywordList.foldl
    (fun acc dk => acc ++ ["DOMAIN-KEYWORD," ++ dk]) rules
  let rules := ipList.foldl
    (fun acc i => acc ++ ["SRC-IP-CIDR," ++ i ++ "/32"]) rules
  domainList.foldl (fun acc d => acc ++ ["DOMAIN-SUFFIX," ++ d]) rules

/-- The provider state (gfwlist.go lines 45-50): the configured refresh
interval, in nanoseconds as Go time.Duration, and the published rules
document.  The RWMutex guards concurrent access and has no sequential
content, so it is not part of the state. -/
structure gfwlistProvider where
  interval : Int
  rules : String

/-- Handle (gfwlist.go lines 52-56) writes the published rules document to
the response; modelled as returning the bytes written. -/
def Handle (s : gfwlistProvider) : String := s.rules

/-- defaultInterval = time.Hour (gfwlist.go line 21), in nanoseconds. -/
def defaultInterval : Int := 3600000000000

/-- The interval selection in start (gfwlist.go lines 108-111): the
configured interval when positive, the default otherwise. -/
def effectiveInterval (s : gfwlistProvider) : Int :=
  if s.interval ≤ 0 then defaultInterval else s.interval

/-- The outcome of the http.Get call inside download: status code and body
of the response that was received. -/
structure Response where
  statusCode : Nat
  body : String

/-- download (gfwlist.go lines 120-132).  The http.Get effect is an input:
either a transport error or a response.  A transport error is returned
wrapped (fmt.Errorf with a wrap verb keeps the message); a non-200 status
produces the formatted error with status code and body; a 200 status
returns the body stream. -/
def download (httpResult : Except String Response) : Except String String :=
  match httpResult with
  | Except.error e => Except.error e
  | Except.ok resp =>
    if resp.statusCode ≠ 200 then
      Except.error ("download gfwlist failed, code: " ++
        toString resp.statusCode ++ ", body: " ++ resp.body)
    else
      Except.ok resp.body

/-- Decimal value of one hex digit, if valid. -/
def unhexDigit (c : Char) : Option Nat :=
  if '0' ≤ c ∧ c ≤ '9' then some (c.toNat - '0'.toNat)
  else if 'a' ≤ c ∧ c ≤ 'f' then some (c.toNat - 'a'.toNat + 10)
  else if 'A' ≤ c ∧ c ≤ 'F' then some (c.toNat - 'A'.toNat + 10)
  else none

/-- Go url.QueryUnescape: a plus sign becomes a space, a percent sign must
be followed by two hex digits and decodes to that byte, anything else is
kept.  A malformed escape is an error.  (Byte-level UTF-8 reassembly is
modelled character-wise; the gfwlist data is ASCII.) -/
def queryUnescapeList : List Char → Option (List Char)
  | [] => some []
  | '%' :: h1 :: h2 :: rest =>
    match unhexDigit h1, unhexDigit h2 with
    | some a, some b => (queryUnescapeList rest).map (Char.ofNat (a * 16 + b) :: ·)
    | _, _ => none
  | '%' :: _ => none
  | '+' :: rest => (queryUnescapeList rest).map (' ' :: ·)
  | c :: rest => (queryUnescapeList rest).map (c :: ·)

def queryUnescape (s : String) : Option String :=
  (queryUnescapeList s.data).map (fun l => ⟨l⟩)

/-- Characters Go's net/url accepts verbatim in a host component: ASCII
alphanumerics, the sub-delims and extra characters its shouldEscape
function lists for host mode, the unreserved marks, and any non-ASCII
character; everything else makes url.Parse fail with an invalid-host
error. -/
def hostCharAllowed (c : Char) : Bool :=
  c.isAlphanum ||
  [Char.ofNat 33, Char.ofNat 36, Char.ofNat 38, Char.ofNat 39,
    Char.ofNat 40, Char.ofNat 41, Char.ofNat 42, Char.ofNat 43,
    Char.ofNat 44, Char.ofNat 59, Char.ofNat 61, Char.ofNat 58,
    Char.ofNat 91, Char.ofNat 93, Char.ofNat 60, Char.ofNat 62,
    Char.ofNat 34].contains c ||
  ['-', '_', '.', '~'].contains c ||
  decide (c.toNat ≥ 0x80)

/-- Go net/url unescape in host mode: validates every character of the host
(see hostCharAllowed) and every percent escape; host percent escapes may
only encode non-ASCII bytes, with the single exception of the escape for
the percent sign itself. -/
def unescapeHost : List Char → Option (List Char)
  | [] => some []
  | '%' :: h1 :: h2 :: rest =>
    match unhexDigit h1, unhexDigit h2 with
    | some a, some b =>
      if a < 8 ∧ ¬(a = 2 ∧ b = 5) then none
      else (unescapeHost rest).map (Char.ofNat (a * 16 + b) :: ·)
    | _, _ => none
  | '%' :: _ => none
  | c :: rest =>
    if hostCharAllowed c then (unescapeHost rest).map (c :: ·) else none

/-- Every percent sign is followed by two hex digits (Go's unescape
succeeds in path, fragment and userinfo modes exactly when this holds,
apart from host-specific checks handled elsewhere). -/
def escapesOK : List Char → Bool
  | [] => true
  | '%' :: h1 :: h2 :: rest =>
    ((unhexDigit h1).isSome && (unhexDigit h2).isSome) && escapesOK rest
  | '%' :: _ => false
  | _ :: rest => escapesOK rest

/-- Go net/url validOptionalPort: empty, or a colon followed by decimal
digits only. -/
def validOptionalPort (port : List Char) : Bool :=
  match port with
  | [] => true
  | ':' :: rest => rest.all (fun c => '0' ≤ c && c ≤ '9')
  | _ => false

/-- Go net/url validUserinfo: ASCII alphanumerics and the listed marks. -/
def validUserinfo (l : List Char) : Bool :=
  l.all fun c =>
    c.isAlphanum ||
    ['-', '.', '_', ':', '~', '!', '$', '&', Char.ofNat 39,
      '(', ')', '*', '+', ',', ';', '=', '%', '@'].contains c

/-- Go net/url parseHost: a bracketed IPv6 literal must close its bracket
and may be followed by an optional valid port; otherwise anything after
the last colon must be a valid optional port; then the whole host is
validated and unescaped in host mode. -/
def parseHost (host : List Char) : Option (List Char) :=
  if host.head? = some '[' then
    match lastIndexOf host ']' with
    | none => none
    | some i =>
      if validOptionalPort (host.drop (i + 1)) then unescapeHost host
      else none
  else
    match lastIndexOf host ':' with
    | none => unescapeHost host
    | some i =>
      if validOptionalPort (host.drop i) then unescapeHost host else none

/-- Go net/url splitHostPort as used by URL.Hostname: strip a valid
optional port after the last colon, then strip surrounding brackets. -/
def splitHostPortHost (host : List Char) : List Char :=
  let h :=
    match lastIndexOf host ':' with
    | some i => if validOptionalPort (host.drop i) then host.take i else host
    | none => host
  if h.head? = some '[' ∧ h.getLast? = some ']' then (h.drop 1).dropLast
  else h

/-- Go net/url stringContainsCTLByte: any byte below 0x20 or equal to
0x7f makes url.Parse fail immediately. -/
def containsCTL (l : List Char) : Bool :=
  l.any fun c => decide (c.toNat < 0x20) || decide (c.toNat = 0x7f)

/-- Takes the part of the authority after the last at sign as the host and
returns the userinfo before it, as Go parseAuthority does. -/
def splitAtLastAt (l : List Char) : Option (List Char) × List Char :=
  match lastIndexOf l '@' with
  | none => (none, l)
  | some i => (some (l.take i), l.drop (i + 1))

/-- Model of Go url.Parse(v).Hostname() for the strings tryGetDomain can
pass it: the empty string (produced by the ignored QueryUnescape error) or
a string with the scheme marker it prepends.  Follows net/url: control
bytes are rejected; the fragment is cut at the first hash sign and its
escapes validated; the query is cut at the first question mark; the
authority runs to the next slash and the rest is the path, whose escapes
are validated; userinfo before the last at sign is validated; the host is
validated, unescaped and stripped of its port. -/
def urlHostname (v : String) : Option String :=
  let l := v.data
  if containsCTL l then none
  else if strStartsWith v "http://" then
    let rest := l.drop 7
    let frag := (l.drop 7).dropWhile (fun x => x ≠ '#')
    if ¬ escapesOK frag then none
    else
      let rest := takeUntilChar rest '#'
      let rest := takeUntilChar rest '?'
      let authority := takeUntilChar rest '/'
      let path := rest.drop authority.length
      if ¬ escapesOK path then none
      else
        let (ui, host) := splitAtLastAt authority
        let uiOK :=
          match ui with
          | none => true
          | some u => validUserinfo u && escapesOK u
        if uiOK then (parseHost host).map (fun h => (⟨splitHostPortHost h⟩ : String))
        else none
  else if l = [] then some ""
  else none

/-- Decimal value of a digit string (no overflow concerns at the lengths
net.ParseIP accepts). -/
def digitsToNat (l : List Char) : Nat :=
  l.foldl (fun acc c => acc * 10 + (c.toNat - '0'.toNat)) 0

/-- One field of a dotted-quad IPv4 address per Go net.ParseIP: one to
three decimal digits, value at most 255, no leading zero. -/
def parseIPv4Field (f : List Char) : Bool :=
  (decide (f ≠ []) && decide (f.length ≤ 3)) &&
  (f.all Char.isDigit &&
    (decide (f.head? = some '0' → f.length = 1) && decide (digitsToNat f ≤ 255)))

/-- Go net.ParseIP on a dotted-quad candidate: exactly four valid fields. -/
def isIPv4 (l : List Char) : Bool :=
  let fields := splitOnChar '.' l
  decide (fields.length = 4) && fields.all parseIPv4Field

/-- One 16-bit IPv6 group: one to four hex digits. -/
def hexGroupOK (g : List Char) : Bool :=
  (decide (g ≠ []) && decide (g.length ≤ 4)) && g.all (fun c => (unhexDigit c).isSome)

/-- Number of 16-bit groups a colon-separated group list stands for; the
final group may be an embedded dotted-quad IPv4 address, which counts as
two groups.  none when some group is malformed. -/
def ipv6GroupsSize : List (List Char) → Option Nat
  | [] => some 0
  | [g] => if hexGroupOK g then some 1 else if isIPv4 g then some 2 else none
  | g :: rest =>
    if hexGroupOK g then (ipv6GroupsSize rest).map (· + 1) else none

/-- Splits at the first occurrence of a double colon, if any. -/
def splitFirstColonColon : List Char → Option (List Char × List Char)
  | [] => none
  | ':' :: ':' :: rest => some ([], rest)
  | c :: rest => (splitFirstColonColon rest).map (fun p => (c :: p.1, p.2))

/-- Go net.ParseIP on an IPv6 candidate, modelled from its grammar: groups
of one to four hex digits separated by colons, at most one double colon
which must expand to at least one zero group, an optional embedded IPv4
address in the final position, no zone suffix. -/
def isIPv6 (l : List Char) : Bool :=
  if l.contains '%' then false
  else
    match splitFirstColonColon l with
    | none =>
      match ipv6GroupsSize (splitOnChar ':' l) with
      | some n => decide (n = 8)
      | none => false
    | some (left, right) =>
      if (splitFirstColonColon right).isSome then false
      else
        let leftGs := if left = [] then [] else splitOnChar ':' left
        let rightGs := if right = [] then [] else splitOnChar ':' right
        if leftGs.all hexGroupOK then
          match ipv6GroupsSize rightGs with
          | some n => decide (leftGs.length + n ≤ 7)
          | none => false
        else false

/-- isIP (gfwlist.go lines 161-163): net.ParseIP dispatches on the first
dot, colon or percent sign it sees; a dot means dotted-quad IPv4, a colon
means IPv6, a percent sign or neither means not an IP. -/
def isIP (v : String) : Bool :=
  match v.data.find? (fun c => (c = '.' ∨ c = ':') ∨ c = '%') with
  | some '.' => isIPv4 v.data
  | some ':' => isIPv6 v.data
  | _ => false

/-- strings.Split(v, ".")[0]: the part of v before its first dot. -/
def firstSplit (v : String) : String := ⟨takeUntilChar v.data '.'⟩

/-- The string tryGetDomain hands to url.Parse: the scheme marker is
prepended when absent, then the whole string is query-unescaped with the
error ignored, so a failed unescape yields the empty string
(gfwlist.go lines 142-145). -/
def schemedUnescaped (v : String) : String :=
  match queryUnescape (if strStartsWith v "http://" then v else "http://" ++ v) with
  | some s => s
  | none => ""

/-- tryGetDomain (gfwlist.go lines 138-159).  Parses the prepared string
as a URL; a parse failure returns the unknown tag with an empty value.
A literal-IP hostname is an ip, a hostname with the full flag is
returned verbatim, otherwise the hostname is cut down to its part from
the second-to-last dot-separated label on.  Go slices pairs with a start
index of len minus two, which panics when the hostname splits into fewer
than two labels: that panic is the none result.  The deferred
strings.Trim removes asterisks from both ends of every returned
value. -/
def tryGetDomain (v : String) (full : Bool) : Option (t × String) :=
  match urlHostname (schemedUnescaped v) with
  | none => some (t.unknown, strTrim "" ['*'])
  | some host =>
    if isIP host then some (t.ip, strTrim host ['*'])
    else if full then some (t.domain, strTrim host ['*'])
    else if (splitOnChar '.' host.data).length < 2 then none
    else
      some (t.domain,
        strTrim
          ⟨(List.intersperse ['.'] ((splitOnChar '.' host.data).drop
              ((splitOnChar '.' host.data).length - 2))).flatten⟩ ['*'])

/-- tryGetDomainOrIP (gfwlist.go lines 134-136). -/
def tryGetDomainOrIP (v : String) : Option (t × String) :=
  tryGetDomain v false

/-- parseLine (gfwlist.go lines 165-192).  The branch guards and the
character-set TrimLeft calls are exactly the source's: the first branch
also captures lines starting with a double bar, and the TrimLeft cutsets
are the character sets of the scheme strings.  The source's successive
reassignments of line are inlined as nested calls. -/
def parseLine (line : String) : Option (t × String) :=
  if strStartsWith line "|" then
    tryGetDomain (strTrimLeft (strTrimLeft line ['|']) ['h', 't', 'p', ':', '/']) true
  else if strStartsWith line "||" || strStartsWith line "http://" then
    tryGetDomainOrIP
      (strTrimLeft
        (strTrimLeft (strTrimLeft line ['|']) ['h', 't', 'p', ':', '/'])
        ['h', 't', 't', 'p', 's', ':', '/'])
  else if strStartsWith line "." then
    match tryGetDomainOrIP (strTrimLeft line ['.']) with
    | none => none
    | some (typ, v) =>
      if strEndsWith v "*" then some (t.domainKeyword, firstSplit v)
      else some (typ, v)
  else if strContainsChar line '.' then
    tryGetDomain line true
  else if isIP line then some (t.ip, line)
  else some (t.unknown, "")

/-- The line filter at the top of the scan loop in parseToList
(gfwlist.go lines 202-209): empty lines and lines opening with a comment,
regex or allow-list marker are skipped. -/
def skipLine (line : String) : Bool :=
  match line.data with
  | [] => true
  | c :: _ => ((c = '!' || c = '[') || c = '/') || c = '@'

/-- The accumulation loop of parseToList (gfwlist.go lines 200-220):
classify each kept line and route the value into the bucket its tag
names; unknown values are dropped.  A parseLine panic aborts the whole
scan (none). -/
def collect : List String → Option (List String × List String × List String)
  | [] => some ([], [], [])
  | line :: rest =>
    if skipLine line then collect rest
    else
      match parseLine line with
      | none => none
      | some (typ, v) =>
        (collect rest).map fun acc =>
          match typ with
          | t.ip => (acc.1, v :: acc.2.1, acc.2.2)
          | t.domain => (v :: acc.1, acc.2.1, acc.2.2)
          | t.domainKeyword => (acc.1, acc.2.1, v :: acc.2.2)
          | t.unknown => acc

/-- parseToList (gfwlist.go lines 197-222).  The base64-decoding bufio
scanner over the fetched stream is modelled by its observable outcome: the
list of scanned lines plus the terminal scanner error.  The source returns
the deduplicated domain and ip lists, the keyword list untouched, and the
scanner error. -/
def parseToList (lines : List String) (scanErr : Option String) :
    Option (List String × List String × List String × Option String) :=
  (collect lines).map fun acc =>
    (uniqueList acc.1, uniqueList acc.2.1, acc.2.2, scanErr)

/-- update (gfwlist.go lines 74-95).  The effectful collaborators are
inputs: the http.Get outcome feeding download, the stream-scanning
function decodeScan standing for the base64 decoder plus bufio scanner,
and marshal standing for yaml.Marshal.  Any error is returned with the
provider state untouched; only a fully successful cycle replaces the
published rules.  The none result is a parseLine panic. -/
def update (decodeScan : String → List String × Option String)
    (marshal : List String → Except String String)
    (httpResult : Except String Response)
    (s : gfwlistProvider) : Option (gfwlistProvider × Option String) :=
  match download httpResult with
  | Except.error e => some (s, some e)
  | Except.ok rc =>
    match parseToList (decodeScan rc).1 (decodeScan rc).2 with
    | none => none
    | some (domainL, ipL, domainKeywordL, err) =>
      match err with
      | some e => some (s, some e)
      | none =>
        match marshal (renderClashRules domainL ipL domainKeywordL) with
        | Except.error e => some (s, some e)
        | Except.ok b => some ({ s with rules := b }, none)

/-! ## Helper lemmas -/

theorem foldl_append_dk (l init : List String) :
    List.foldl (fun acc dk => acc ++ ["DOMAIN-KEYWORD," ++ dk]) init l =
      init ++ l.map (fun dk => "DOMAIN-KEYWORD," ++ dk) := by
  induction l generalizing init with
  | nil => simp
  | cons v rest ih => simp [ih]

theorem foldl_append_ip (l init : List String) :
    List.foldl (fun acc i => acc ++ ["SRC-IP-CIDR," ++ i ++ "/32"]) init l =
      init ++ l.map (fun i => "SRC-IP-CIDR," ++ i ++ "/32") := by
  induction l generalizing init with
  | nil => simp
  | cons v rest ih => simp [ih]

theorem foldl_append_dom (l init : List String) :
    List.foldl (fun acc d => acc ++ ["DOMAIN-SUFFIX," ++ d]) init l =
      init ++ l.map (fun d => "DOMAIN-SUFFIX," ++ d) := by
  induction l generalizing init with
  | nil => simp
  | cons v rest ih => simp [ih]

/-- The render loops produce exactly the three mapped blocks in order. -/
theorem renderClashRules_eq (domainList ipList domainKeywordList : List String) :
    renderClashRules domainList ipList domainKeywordList =
      domainKeywordList.map (fun dk => "DOMAIN-KEYWORD," ++ dk) ++
        ipList.map (fun i => "SRC-IP-CIDR," ++ i ++ "/32") ++
        domainList.map (fun d => "DOMAIN-SUFFIX," ++ d) := by
  simp [renderClashRules, foldl_append_dk, foldl_append_ip, foldl_append_dom]

/-- A pattern with a mismatch inside the constant part is not a prefix of
the constant part followed by anything. -/
theorem mismatch_not_isPrefixOf :
    ∀ (i : Nat) (p c s : List Char) (hp : i < p.length) (hc : i < c.length),
      p.get ⟨i, hp⟩ ≠ c.get ⟨i, hc⟩ → p.isPrefixOf (c ++ s) = false := by
  intro i
  induction i with
  | zero =>
    intro p c s hp hc hne
    match p, c with
    | a :: p1, b :: c1 =>
      simp only [List.get] at hne
      simp [List.isPrefixOf, Bool.and_eq_false_iff]
      intro hab
      exact absurd hab hne
  | succ n ih =>
    intro p c s hp hc hne
    match p, c with
    | a :: p1, b :: c1 =>
      simp only [List.get] at hne
      simp only [List.cons_append, List.isPrefixOf, Bool.and_eq_false_iff]
      by_cases hab : a = b
      · right
        exact ih p1 c1 s (Nat.lt_of_succ_lt_succ hp) (Nat.lt_of_succ_lt_succ hc) hne
      · left
        simp [hab]

/-! ## C10 -/

/-- C10: the refresh loop's effective interval is the configured interval
when it is positive, and the one-hour default when it is unset (zero) or
non-positive. -/
theorem effectiveInterval_spec (s : gfwlistProvider) :
    (0 < s.interval → effectiveInterval s = s.interval) ∧
    (s.interval ≤ 0 → effectiveInterval s = defaultInterval) := by
  constructor
  · intro h
    simp [effectiveInterval, show ¬ s.interval ≤ 0 by omega]
  · intro h
    simp [effectiveInterval, h]

theorem effectiveInterval_spec_witness :
    ((0 : Int) < 5 ∧ effectiveInterval ⟨5, ""⟩ = 5) ∧
    ((0 : Int) ≤ 0 ∧ effectiveInterval ⟨0, ""⟩ = defaultInterval) :=
  ⟨⟨by decide, (effectiveInterval_spec ⟨5, ""⟩).1 (by decide)⟩,
    ⟨by decide, (effectiveInterval_spec ⟨0, ""⟩).2 (by decide)⟩⟩

/-! ## C7 -/

/-- C7: download succeeds exactly on status 200, returning the body
stream; a non-200 status yields the formatted error carrying the status
code and the body that was read; a transport error is passed back
wrapped. -/
theorem download_status_contract (resp : Response) (e : String) :
    (resp.statusCode = 200 → download (Except.ok resp) = Except.ok resp.body) ∧
    (resp.statusCode ≠ 200 →
      download (Except.ok resp) =
        Except.error ("download gfwlist failed, code: " ++
          toString resp.statusCode ++ ", body: " ++ resp.body)) ∧
    download (Except.error e) = Except.error e ∧
    ((∃ stream, download (Except.ok resp) = Except.ok stream) ↔
      resp.statusCode = 200) := by
  refine ⟨fun h => by simp [download, h], fun h => by simp [download, h], rfl, ?_⟩
  constructor
  · rintro ⟨stream, hs⟩
    by_contra hne
    simp [download, hne] at hs
  · intro h
    exact ⟨resp.body, by simp [download, h]⟩

theorem download_status_contract_witness :
    ((404 : Nat) ≠ 200 ∧
      download (Except.ok ⟨404, "nf"⟩) =
        Except.error ("download gfwlist failed, code: " ++
          toString (404 : Nat) ++ ", body: " ++ "nf")) ∧
    ((200 : Nat) = 200 ∧
      download (Except.ok ⟨200, "body"⟩) = Except.ok "body") :=
  ⟨⟨by decide, (download_status_contract ⟨404, "nf"⟩ "x").2.1 (by decide)⟩,
    ⟨rfl, (download_status_contract ⟨200, "body"⟩ "x").1 rfl⟩⟩

/-! ## C2 -/

/-- C2: whenever an update cycle returns an error (transport, status,
scan or marshal), the provider state is unchanged, so subsequent reads
still serve the previously published document. -/
theorem update_stale_serve (decodeScan : String → List String × Option String)
    (marshal : List String → Except String String)
    (httpResult : Except String Response)
    (s s' : gfwlistProvider) (e : String)
    (h : update decodeScan marshal httpResult s = some (s', some e)) :
    Handle s' = Handle s ∧ s'.rules = s.rules := by
  unfold update at h
  split at h
  · simp only [Option.some.injEq, Prod.mk.injEq] at h
    rw [← h.1]
    exact ⟨rfl, rfl⟩
  · split at h
    · exact absurd h (by simp)
    · split at h
      · simp only [Option.some.injEq, Prod.mk.injEq] at h
        rw [← h.1]
        exact ⟨rfl, rfl⟩
      · split at h
        · simp only [Option.some.injEq, Prod.mk.injEq] at h
          rw [← h.1]
          exact ⟨rfl, rfl⟩
        · simp only [Option.some.injEq, Prod.mk.injEq] at h
          exact absurd h.2 (by simp)

theorem update_stale_serve_witness :
    Handle ⟨0, "old"⟩ = Handle ⟨0, "old"⟩ ∧
    (⟨0, "old"⟩ : gfwlistProvider).rules = (⟨0, "old"⟩ : gfwlistProvider).rules :=
  update_stale_serve (fun _ => ([], none)) (fun _ => Except.ok "")
    (Except.error "connection refused") ⟨0, "old"⟩ ⟨0, "old"⟩
    "connection refused" rfl

/-! ## C4 -/

/-- C4: render produces one line per entry in the fixed bucket order:
all keyword lines first, then all ip lines, then all domain lines, each
block in its bucket's order, with no sorting or interleaving. -/
theorem renderClashRules_bucket_order
    (domainList ipList domainKeywordList : List String) :
    renderClashRules domainList ipList domainKeywordList =
      domainKeywordList.map (fun dk => "DOMAIN-KEYWORD," ++ dk) ++
        ipList.map (fun i => "SRC-IP-CIDR," ++ i ++ "/32") ++
        domainList.map (fun d => "DOMAIN-SUFFIX," ++ d) :=
  renderClashRules_eq domainList ipList domainKeywordList

/-! ## C8 -/

/-- C8: the line ".ads.example.com" is stripped of its leading dot,
extracted as hostname "ads.example.com", reduced to its last two labels
and classified Domain with value "example.com". -/
theorem classify_scenario_b :
    parseLine ".ads.example.com" = some (t.domain, "example.com") := by decide

/-! ## C1 -/

/-- C1 counterexample: the line "||tracker.example.org^" is not
classified Domain with value "example.org"; the first branch of
parseLine captures it, the character-set TrimLeft eats the leading t of
the hostname, and the caret makes URL parsing fail, so the line is
classified Unknown with an empty value. -/
theorem doubleBar_scenario_cex :
    parseLine "||tracker.example.org^" ≠ some (t.domain, "example.org") ∧
    parseLine "||tracker.example.org^" = some (t.unknown, "") :=
  ⟨by decide, by decide⟩

/-- C1 amended: a line starting with a double bar is handled by the
single-bar branch, which strips leading bar characters and then any
leading characters of the scheme character set and extracts the full
hostname, with no reduction to two labels; "||sub.example.com" therefore
yields Domain "sub.example.com", and "||tracker.example.org^" yields
Unknown with an empty value because the over-trimmed host fails URL
parsing. -/
theorem doubleBar_fullHost_amended :
    (∀ line : String, strStartsWith line "||" = true →
      parseLine line =
        tryGetDomain
          (strTrimLeft (strTrimLeft line ['|']) ['h', 't', 'p', ':', '/'])
          true) ∧
    parseLine "||sub.example.com" = some (t.domain, "sub.example.com") ∧
    parseLine "||tracker.example.org^" = some (t.unknown, "") := by
  refine ⟨?_, by decide, by decide⟩
  intro line h
  have hbar : strStartsWith line "|" = true := by
    unfold strStartsWith at h ⊢
    match hd : line.data with
    | [] => rw [hd] at h; exact absurd h (by decide)
    | c :: rest =>
      rw [hd] at h
      simp [List.isPrefixOf] at h ⊢
      exact h.1
  unfold parseLine
  rw [hbar]
  simp

theorem doubleBar_fullHost_amended_witness :
    strStartsWith "||sub.example.com" "||" = true ∧
    parseLine "||sub.example.com" =
      tryGetDomain
        (strTrimLeft (strTrimLeft "||sub.example.com" ['|'])
          ['h', 't', 'p', ':', '/'])
        true :=
  ⟨by decide, doubleBar_fullHost_amended.1 "||sub.example.com" (by decide)⟩

/-! ## C5 -/

/-- C5: parseLine is not total.  On these lines the extracted hostname
has a single dot-separated label, the Go slice of the last two labels is
out of bounds, and the call panics; the panic is the none value of the
model. -/
theorem parseLine_panics_short_hostname :
    parseLine ".foo" = none ∧ parseLine "..." = none ∧
    parseLine "http://foo" = none :=
  ⟨by decide, by decide, by decide⟩

/-! ## uniqueList lemmas -/

theorem mem_uniqueListGo {m l : List String} {v : String}
    (h : v ∈ uniqueListGo m l) : v ∉ m ∧ v ≠ "" ∧ v ∈ l := by
  induction l generalizing m with
  | nil => simp [uniqueListGo] at h
  | cons x rest ih =>
    simp only [uniqueListGo] at h
    split at h
    · obtain ⟨h1, h2, h3⟩ := ih h
      exact ⟨h1, h2, List.mem_cons_of_mem _ h3⟩
    · rename_i hguard
      rcases List.mem_cons.mp h with hv | hv
      · subst hv
        push_neg at hguard
        exact ⟨hguard.1, hguard.2, List.mem_cons_self _ _⟩
      · obtain ⟨h1, h2, h3⟩ := ih hv
        refine ⟨fun hm => h1 (List.mem_cons_of_mem _ hm), h2,
          List.mem_cons_of_mem _ h3⟩

theorem nodup_uniqueListGo (m l : List String) : (uniqueListGo m l).Nodup := by
  induction l generalizing m with
  | nil => simp [uniqueListGo]
  | cons x rest ih =>
    simp only [uniqueListGo]
    split
    · exact ih m
    · refine List.nodup_cons.mpr ⟨fun hx => ?_, ih (x :: m)⟩
      exact (mem_uniqueListGo hx).1 (List.mem_cons_self _ _)

theorem uniqueListGo_eq_self {m l : List String} (hn : l.Nodup)
    (hdis : ∀ v ∈ l, v ∉ m ∧ v ≠ "") : uniqueListGo m l = l := by
  induction l generalizing m with
  | nil => simp [uniqueListGo]
  | cons x rest ih =>
    simp only [uniqueListGo]
    have hx := hdis x (List.mem_cons_self _ _)
    rw [if_neg (by push_neg; exact hx)]
    congr 1
    refine ih (List.nodup_cons.mp hn).2 fun v hv => ?_
    have h := hdis v (List.mem_cons_of_mem _ hv)
    refine ⟨fun hm => ?_, h.2⟩
    rcases List.mem_cons.mp hm with hvx | hvm
    · exact (List.nodup_cons.mp hn).1 (hvx ▸ hv)
    · exact h.1 hvm

/-! ## C9 -/

/-- C9: uniqueList is idempotent and order-preserving: applying it twice
equals applying it once, and a list with no duplicates and no empty
strings is returned unchanged. -/
theorem uniqueList_idempotent :
    (∀ l : List String, uniqueList (uniqueList l) = uniqueList l) ∧
    (∀ l : List String, l.Nodup → "" ∉ l → uniqueList l = l) := by
  have self : ∀ l : List String, l.Nodup → "" ∉ l → uniqueList l = l := by
    intro l hn he
    refine uniqueListGo_eq_self hn fun v hv => ⟨List.not_mem_nil v, ?_⟩
    intro hveq
    exact he (hveq ▸ hv)
  refine ⟨fun l => self _ (nodup_uniqueListGo [] l) ?_, self⟩
  intro h
  exact (mem_uniqueListGo h).2.1 rfl

theorem uniqueList_idempotent_witness :
    uniqueList (uniqueList ["a", "", "a", "b"]) = uniqueList ["a", "", "a", "b"] ∧
    List.Nodup ["a", "b"] ∧ "" ∉ ["a", "b"] ∧
    uniqueList ["a", "b"] = ["a", "b"] :=
  ⟨uniqueList_idempotent.1 ["a", "", "a", "b"], by decide, by decide,
    uniqueList_idempotent.2 ["a", "b"] (by decide) (by decide)⟩

/-! ## uniqueList against the spec's first-occurrence dedup -/

theorem filter_not_mem_cons (v : String) (m : List String) (L : List String) :
    L.filter (fun x => decide (x ∉ v :: m)) =
      (L.filter (fun x => x != v)).filter (fun x => decide (x ∉ m)) := by
  rw [List.filter_filter]
  refine List.filter_congr fun x _ => ?_
  by_cases hxv : x = v <;> by_cases hxm : x ∈ m <;>
    simp [List.mem_cons, hxv, hxm]

theorem filter_seen_absorb {v : String} {m : List String} (hv : v ∈ m)
    (L : List String) :
    (L.filter (fun x => x != v)).filter (fun x => decide (x ∉ m)) =
      L.filter (fun x => decide (x ∉ m)) := by
  rw [List.filter_filter]
  refine List.filter_congr fun x _ => ?_
  by_cases hxm : x ∈ m
  · simp [hxm]
  · have hxv : x ≠ v := fun hx => hxm (hx ▸ hv)
    simp [hxm, hxv]

theorem uniqueListGo_eq_filter (m l : List String) :
    uniqueListGo m l = (dedupFirstOccur l).filter (fun x => decide (x ∉ m)) := by
  induction l generalizing m with
  | nil => simp [uniqueListGo, dedupFirstOccur]
  | cons v rest ih =>
    simp only [uniqueListGo, dedupFirstOccur]
    by_cases hve : v = ""
    · rw [if_pos (Or.inr hve), if_pos hve]
      exact ih m
    · rw [if_neg hve]
      by_cases hvm : v ∈ m
      · rw [if_pos (Or.inl hvm), List.filter_cons_of_neg (by simp [hvm]),
          filter_seen_absorb hvm]
        exact ih m
      · rw [if_neg (by push_neg; exact ⟨hvm, hve⟩),
          List.filter_cons_of_pos (by simp [hvm]), ih (v :: m),
          filter_not_mem_cons]

theorem uniqueList_eq_dedupFirstOccur (l : List String) :
    uniqueList l = dedupFirstOccur l := by
  rw [uniqueList, uniqueListGo_eq_filter]
  refine List.filter_eq_self.mpr fun x _ => by simp

/-! ## C3 -/

/-- C3: for every parsed document, the domains and ips of the resulting
rule set are the accumulated raw values deduplicated to their first
occurrences with empty strings dropped (hence no duplicates and no empty
entries, in first-occurrence order), while the keyword bucket is the raw
accumulated list passed through unmodified. -/
theorem parseToList_dedup_invariants
    (lines : List String) (scanErr : Option String)
    (rawD rawI rawK dl il kl : List String) (e : Option String)
    (hraw : collect lines = some (rawD, rawI, rawK))
    (h : parseToList lines scanErr = some (dl, il, kl, e)) :
    (dl = dedupFirstOccur rawD ∧ dl.Nodup ∧ "" ∉ dl) ∧
    (il = dedupFirstOccur rawI ∧ il.Nodup ∧ "" ∉ il) ∧
    kl = rawK ∧ e = scanErr := by
  unfold parseToList at h
  rw [hraw] at h
  simp only [Option.map_some', Option.some.injEq, Prod.mk.injEq] at h
  obtain ⟨h1, h2, h3, h4⟩ := h
  subst h1 h2 h3 h4
  have hd : "" ∉ uniqueList rawD := fun hmem => (mem_uniqueListGo hmem).2.1 rfl
  have hi : "" ∉ uniqueList rawI := fun hmem => (mem_uniqueListGo hmem).2.1 rfl
  exact ⟨⟨uniqueList_eq_dedupFirstOccur rawD, nodup_uniqueListGo [] rawD, hd⟩,
    ⟨uniqueList_eq_dedupFirstOccur rawI, nodup_uniqueListGo [] rawI, hi⟩,
    rfl, rfl⟩

theorem parseToList_dedup_invariants_witness :
    (["example.com"] = dedupFirstOccur ["example.com", "example.com"] ∧
      List.Nodup ["example.com"] ∧ "" ∉ ["example.com"]) ∧
    (([] : List String) = dedupFirstOccur [] ∧
      List.Nodup ([] : List String) ∧ "" ∉ ([] : List String)) ∧
    ([] : List String) = [] ∧ (none : Option String) = none :=
  parseToList_dedup_invariants
    [".ads.example.com", ".ads.example.com"] none
    ["example.com", "example.com"] [] [] ["example.com"] [] [] none
    (by decide) (by decide)

/-! ## C6 -/

theorem star_isPrefixOf_dropWhile (y : List Char) :
    (['*'] : List Char).isPrefixOf
      (y.dropWhile (fun c => (['*'] : List Char).contains c)) = false := by
  induction y with
  | nil => rfl
  | cons c y ih =>
    by_cases hc : c = '*'
    · subst hc
      rw [List.dropWhile_cons_of_pos (by decide)]
      exact ih
    · rw [List.dropWhile_cons_of_neg (by simp [hc])]
      have hbeq : (('*' : Char) == c) = false := by
        simp [Ne.symm hc]
      simp [List.isPrefixOf, hbeq]

/-- No value returned through the deferred strings.Trim ends with an
asterisk. -/
theorem strEndsWith_strTrim_star (s : String) :
    strEndsWith (strTrim s ['*']) "*" = false := by
  show List.isPrefixOf ("*".data.reverse)
    ((((s.data.dropWhile (fun c => (['*'] : List Char).contains c)).reverse.dropWhile
        (fun c => (['*'] : List Char).contains c)).reverse).reverse) = false
  rw [List.reverse_reverse]
  exact star_isPrefixOf_dropWhile
    ((s.data.dropWhile (fun c => (['*'] : List Char).contains c)).reverse)

/-- Every classification tryGetDomain returns has a value that does not
end with an asterisk, and a tag that is never domainKeyword. -/
theorem tryGetDomain_trimmed (v : String) (full : Bool) (tag : t) (s : String)
    (h : tryGetDomain v full = some (tag, s)) :
    strEndsWith s "*" = false ∧ tag ≠ t.domainKeyword := by
  unfold tryGetDomain at h
  split at h
  · simp only [Option.some.injEq, Prod.mk.injEq] at h
    rw [← h.2]
    exact ⟨strEndsWith_strTrim_star "", h.1 ▸ (by decide)⟩
  · split at h
    · simp only [Option.some.injEq, Prod.mk.injEq] at h
      rw [← h.2]
      exact ⟨strEndsWith_strTrim_star _, h.1 ▸ (by decide)⟩
    · split at h
      · simp only [Option.some.injEq, Prod.mk.injEq] at h
        rw [← h.2]
        exact ⟨strEndsWith_strTrim_star _, h.1 ▸ (by decide)⟩
      · split at h
        · cases h
        · simp only [Option.some.injEq, Prod.mk.injEq] at h
          rw [← h.2]
          exact ⟨strEndsWith_strTrim_star _, h.1 ▸ (by decide)⟩

theorem srcip_line_not_dk (x : String) :
    strStartsWith ("SRC-IP-CIDR," ++ x ++ "/32") "DOMAIN-KEYWORD," = false := by
  unfold strStartsWith
  rw [String.data_append, String.data_append, List.append_assoc]
  exact mismatch_not_isPrefixOf 0 _ _ _ (by decide) (by decide) (by decide)

theorem domsuffix_line_not_dk (x : String) :
    strStartsWith ("DOMAIN-SUFFIX," ++ x) "DOMAIN-KEYWORD," = false := by
  unfold strStartsWith
  rw [String.data_append]
  exact mismatch_not_isPrefixOf 7 _ _ _ (by decide) (by decide) (by decide)

/-- C6: parseLine never yields the DomainKeyword tag, because the
deferred asterisk Trim in tryGetDomain makes the wildcard-suffix test of
the dot branch unsatisfiable; hence the keyword bucket of every parsed
document is empty and the rendered document never contains a
DOMAIN-KEYWORD line. -/
theorem parseLine_never_domainKeyword :
    (∀ (line : String) (tag : t) (v : String),
      parseLine line = some (tag, v) → tag ≠ t.domainKeyword) ∧
    (∀ (lines rawD rawI rawK : List String),
      collect lines = some (rawD, rawI, rawK) → rawK = []) ∧
    (∀ (lines : List String) (scanErr : Option String)
      (dl il kl : List String) (e : Option String),
      parseToList lines scanErr = some (dl, il, kl, e) →
      ∀ r ∈ renderClashRules dl il kl,
        strStartsWith r "DOMAIN-KEYWORD," = false) := by
  have hA : ∀ (line : String) (tag : t) (v : String),
      parseLine line = some (tag, v) → tag ≠ t.domainKeyword := by
    intro line tag v h
    unfold parseLine at h
    split at h
    · exact (tryGetDomain_trimmed _ _ _ _ h).2
    · split at h
      · exact (tryGetDomain_trimmed _ _ _ _ h).2
      · split at h
        · split at h
          · cases h
          · rename_i typ v0 heq
            split at h
            · rename_i hstar
              exact absurd ((tryGetDomain_trimmed _ _ _ _ heq).1)
                (by rw [hstar]; decide)
            · simp only [Option.some.injEq, Prod.mk.injEq] at h
              exact h.1 ▸ (tryGetDomain_trimmed _ _ _ _ heq).2
        · split at h
          · exact (tryGetDomain_trimmed _ _ _ _ h).2
          · split at h
            · simp only [Option.some.injEq, Prod.mk.injEq] at h
              exact h.1 ▸ (by decide)
            · simp only [Option.some.injEq, Prod.mk.injEq] at h
              exact h.1 ▸ (by decide)
  have hB : ∀ (lines rawD rawI rawK : List String),
      collect lines = some (rawD, rawI, rawK) → rawK = [] := by
    intro lines
    induction lines with
    | nil =>
      intro rawD rawI rawK h
      simp only [collect, Option.some.injEq, Prod.mk.injEq] at h
      exact h.2.2.symm
    | cons line rest ih =>
      intro rawD rawI rawK h
      simp only [collect] at h
      split at h
      · exact ih _ _ _ h
      · split at h
        · cases h
        · rename_i typ v heq
          cases hc : collect rest with
          | none => rw [hc] at h; cases h
          | some acc =>
            obtain ⟨a1, a2, a3⟩ := acc
            rw [hc] at h
            simp only [Option.map_some', Option.some.injEq] at h
            have ha3 : a3 = [] := ih _ _ _ hc
            cases typ with
            | unknown =>
              simp only [Prod.mk.injEq] at h
              exact h.2.2 ▸ ha3
            | ip =>
              simp only [Prod.mk.injEq] at h
              exact h.2.2 ▸ ha3
            | domain =>
              simp only [Prod.mk.injEq] at h
              exact h.2.2 ▸ ha3
            | domainKeyword => exact absurd rfl (hA line t.domainKeyword v heq)
  refine ⟨hA, hB, ?_⟩
  intro lines scanErr dl il kl e h r hr
  unfold parseToList at h
  cases hc : collect lines with
  | none => rw [hc] at h; cases h
  | some acc =>
    obtain ⟨a1, a2, a3⟩ := acc
    rw [hc] at h
    simp only [Option.map_some', Option.some.injEq, Prod.mk.injEq] at h
    obtain ⟨h1, h2, h3, h4⟩ := h
    have ha3 : a3 = [] := hB _ _ _ _ hc
    rw [renderClashRules_eq, ← h3, ha3] at hr
    simp only [List.map_nil, List.nil_append, List.mem_append,
      List.mem_map] at hr
    rcases hr with ⟨x, _, rfl⟩ | ⟨x, _, rfl⟩
    · exact srcip_line_not_dk x
    · exact domsuffix_line_not_dk x

theorem parseLine_never_domainKeyword_witness :
    (t.domain ≠ t.domainKeyword) ∧
    (([] : List String) = []) ∧
    (∀ r ∈ renderClashRules ["example.com"] [] [],
      strStartsWith r "DOMAIN-KEYWORD," = false) :=
  ⟨parseLine_never_domainKeyword.1 ".ads.example.com" t.domain "example.com"
      (by decide),
    parseLine_never_domainKeyword.2.1 [".ads.example.com"] ["example.com"] []
      [] (by decide),
    parseLine_never_domainKeyword.2.2 [".ads.example.com"] none
      ["example.com"] [] [] none (by decide)⟩

end Mate
